import Mathlib

/-!
Verification of the `cellarsense-store` sensor store (`sensorstore` package).

The development shallowly embeds the Go source:

* bbolt buckets are modelled as association lists of `(key, value)` string
  pairs kept strictly sorted in byte-lexicographic key order (`lexLt`,
  mirroring `bytes.Compare`); `Bucket.Put` becomes the sorted
  insert-or-replace `bput`, `Cursor.Last` becomes `List.getLast?`, and
  `Cursor.Seek` becomes dropping the strict prefix of smaller keys.
* `time.Time` values are modelled at second granularity as `Int` seconds
  since the Go zero time (January 1, year 1); the store resolution (10
  minutes in `main.go`) and the RFC 3339 rendering used for keys are both
  whole-second, so nothing observable is lost.  `Time.Truncate` becomes
  `goTruncate`, `Time.Format(time.RFC3339)` becomes `goFormat` (which keeps
  the local-zone offset of `time.Now()`, modelled as a fixed offset of
  `tz` minutes), and `time.Parse(time.RFC3339, ·)` becomes `parseRFC3339`.
* `encoding/json` marshalling of the two-`float32` struct `SensorValues`
  is kept abstract: the model is parametrised by `marshal`/`unmarshal`
  functions (IEEE-754 text formatting is outside the embedding; Go's
  `json.Marshal` can fail, e.g. on NaN, which the parameter reflects by
  returning `none`).
* the writer goroutine of `storeValuesRoutine` is modelled as a sequential
  consumer of the list of messages received on its channel.

Runtime panics (nil bucket dereference) are modelled as a distinguished
`Res.panicked` outcome, separate from returned Go errors.
-/

set_option maxHeartbeats 1000000

/-- Byte-lexicographic strict order on char lists, mirroring `bytes.Compare`
on the (ASCII) key bytes used by bbolt to order keys inside a bucket. -/
def lexLt : List Char → List Char → Bool
  | _, [] => false
  | [], _ :: _ => true
  | a :: as, b :: bs => if a = b then lexLt as bs else decide (a < b)

theorem lexLt_nil_right (l : List Char) : lexLt l [] = false := by
  cases l <;> rfl

theorem lexLt_irrefl (l : List Char) : lexLt l l = false := by
  induction l with
  | nil => rfl
  | cons a as ih => simp [lexLt, ih]

theorem lexLt_trans {a b c : List Char} (h1 : lexLt a b = true)
    (h2 : lexLt b c = true) : lexLt a c = true := by
  induction a generalizing b c with
  | nil =>
    cases c with
    | nil => cases b <;> simp_all [lexLt]
    | cons c cs => rfl
  | cons x xs ih =>
    cases b with
    | nil => simp [lexLt] at h1
    | cons y ys =>
      cases c with
      | nil => simp [lexLt] at h2
      | cons z zs =>
        simp only [lexLt] at h1 h2 ⊢
        by_cases hxy : x = y
        · subst hxy
          simp only [if_pos rfl] at h1
          by_cases hyz : x = z
          · subst hyz
            simp only [if_pos rfl] at h2 ⊢
            exact ih h1 h2
          · simp only [if_neg hyz] at h2 ⊢
            exact h2
        · simp only [if_neg hxy, decide_eq_true_eq] at h1
          by_cases hyz : y = z
          · subst hyz
            simp only [if_neg hxy, decide_eq_true_eq]
            exact h1
          · simp only [if_neg hyz, decide_eq_true_eq] at h2
            have hxz : x < z := lt_trans h1 h2
            have : x ≠ z := ne_of_lt hxz
            simp [if_neg this, hxz]

theorem lexLt_asymm {a b : List Char} (h : lexLt a b = true) :
    lexLt b a = false := by
  induction a generalizing b with
  | nil =>
    cases b with
    | nil => simp [lexLt] at h
    | cons y ys => rfl
  | cons x xs ih =>
    cases b with
    | nil => simp [lexLt] at h
    | cons y ys =>
      simp only [lexLt] at h ⊢
      by_cases hxy : x = y
      · subst hxy
        simp only [if_pos rfl] at h ⊢
        exact ih h
      · simp only [if_neg hxy, decide_eq_true_eq] at h
        have hne : y ≠ x := fun hEq => hxy hEq.symm
        simp [if_neg hne, not_lt_of_gt h]

theorem lexLt_total (a b : List Char) :
    lexLt a b = true ∨ a = b ∨ lexLt b a = true := by
  induction a generalizing b with
  | nil =>
    cases b with
    | nil => exact Or.inr (Or.inl rfl)
    | cons y ys => exact Or.inl rfl
  | cons x xs ih =>
    cases b with
    | nil => exact Or.inr (Or.inr rfl)
    | cons y ys =>
      by_cases hxy : x = y
      · subst hxy
        rcases ih ys with h | h | h
        · exact Or.inl (by simp [lexLt, h])
        · exact Or.inr (Or.inl (by rw [h]))
        · exact Or.inr (Or.inr (by simp [lexLt, h]))
      · rcases lt_trichotomy x y with h | h | h
        · exact Or.inl (by simp [lexLt, if_neg hxy, h])
        · exact absurd h hxy
        · have hne : y ≠ x := fun hEq => hxy hEq.symm
          exact Or.inr (Or.inr (by simp [lexLt, if_neg hne, h]))

theorem lexLt_append_same (xs as bs : List Char) :
    lexLt (xs ++ as) (xs ++ bs) = lexLt as bs := by
  induction xs with
  | nil => rfl
  | cons x xs ih => simp [lexLt, ih]

theorem lexLt_append_of_lt {as bs : List Char} (u v : List Char)
    (hlen : as.length = bs.length) (h : lexLt as bs = true) :
    lexLt (as ++ u) (bs ++ v) = true := by
  induction as generalizing bs with
  | nil =>
    cases bs with
    | nil => simp [lexLt] at h
    | cons y ys => simp at hlen
  | cons x xs ih =>
    cases bs with
    | nil => simp at hlen
    | cons y ys =>
      simp only [lexLt, List.cons_append] at h ⊢
      by_cases hxy : x = y
      · subst hxy
        simp only [if_pos rfl] at h ⊢
        exact ih (by simpa using hlen) h
      · simp only [if_neg hxy] at h ⊢
        exact h

/-- Decimal digit character, used by the fixed-width fields of the RFC 3339
layout `"2006-01-02T15:04:05Z07:00"` that `time.Format` renders. -/
def digitChar (n : Nat) : Char :=
  match n with
  | 0 => '0' | 1 => '1' | 2 => '2' | 3 => '3' | 4 => '4'
  | 5 => '5' | 6 => '6' | 7 => '7' | 8 => '8' | _ => '9'

/-- Inverse of `digitChar` on actual digit characters. -/
def charDigit (c : Char) : Option Nat :=
  if c = '0' then some 0 else if c = '1' then some 1
  else if c = '2' then some 2 else if c = '3' then some 3
  else if c = '4' then some 4 else if c = '5' then some 5
  else if c = '6' then some 6 else if c = '7' then some 7
  else if c = '8' then some 8 else if c = '9' then some 9 else none

/-- Fixed-width zero-padded decimal rendering (most significant digit
first), as produced by the numeric verbs of Go's time formatting. -/
def natToPad : Nat → Nat → List Char
  | 0, _ => []
  | k + 1, n => natToPad k (n / 10) ++ [digitChar (n % 10)]

theorem natToPad_length (k n : Nat) : (natToPad k n).length = k := by
  induction k generalizing n with
  | zero => rfl
  | succ k ih => simp [natToPad, ih]

theorem charDigit_digitChar {d : Nat} (h : d < 10) :
    charDigit (digitChar d) = some d := by
  interval_cases d <;> decide

theorem digitChar_lt {d1 d2 : Nat} (h1 : d1 < 10) (h2 : d2 < 10)
    (h : d1 < d2) : digitChar d1 < digitChar d2 ∧ digitChar d1 ≠ digitChar d2 := by
  interval_cases d1 <;> interval_cases d2 <;> simp_all <;> decide

theorem natToPad_lexLt {k a b : Nat} (hab : a < b) (hb : b < 10 ^ k) :
    lexLt (natToPad k a) (natToPad k b) = true := by
  induction k generalizing a b with
  | zero => omega
  | succ k ih =>
    have hqb : b / 10 < 10 ^ k := by
      have : b < 10 ^ k * 10 := by
        calc b < 10 ^ (k + 1) := hb
        _ = 10 ^ k * 10 := by ring
      omega
    have hq : a / 10 ≤ b / 10 := Nat.div_le_div_right (le_of_lt hab)
    rcases Nat.lt_or_ge (a / 10) (b / 10) with hlt | hge
    · have hpref := ih hlt hqb
      simp only [natToPad]
      exact lexLt_append_of_lt _ _ (by rw [natToPad_length, natToPad_length]) hpref
    · have heq : a / 10 = b / 10 := le_antisymm hq hge
      have hrem : a % 10 < b % 10 := by
        have ha' := Nat.div_add_mod a 10
        have hb' := Nat.div_add_mod b 10
        omega
      have hd := digitChar_lt (Nat.mod_lt _ (by omega)) (Nat.mod_lt _ (by omega)) hrem
      simp only [natToPad, heq, lexLt_append_same, lexLt]
      simp [if_neg hd.2, hd.1]

/-- Accumulating decimal parse of a digit list, as done by `time.Parse`
for each numeric field. -/
def parseDigits : List Char → Nat → Option Nat
  | [], acc => some acc
  | c :: cs, acc =>
    match charDigit c with
    | some d => parseDigits cs (acc * 10 + d)
    | none => none

theorem parseDigits_append (A B : List Char) (acc : Nat) :
    parseDigits (A ++ B) acc =
      match parseDigits A acc with
      | some a => parseDigits B a
      | none => none := by
  induction A generalizing acc with
  | nil => rfl
  | cons c cs ih =>
    simp only [List.cons_append, parseDigits]
    cases charDigit c with
    | none => rfl
    | some d => exact ih _

theorem parseDigits_natToPad {k n : Nat} (acc : Nat) (h : n < 10 ^ k) :
    parseDigits (natToPad k n) acc = some (acc * 10 ^ k + n) := by
  induction k generalizing n acc with
  | zero =>
    have : n = 0 := by omega
    simp [natToPad, parseDigits, this]
  | succ k ih =>
    have hq : n / 10 < 10 ^ k := by
      have : n < 10 ^ k * 10 := by
        calc n < 10 ^ (k + 1) := h
        _ = 10 ^ k * 10 := by ring
      omega
    simp only [natToPad, parseDigits_append, ih acc hq]
    have hd := charDigit_digitChar (Nat.mod_lt n (show 0 < 10 by omega))
    simp only [parseDigits, hd]
    have hdm := Nat.div_add_mod n 10
    have hstep : (acc * 10 ^ k + n / 10) * 10 + n % 10
        = acc * (10 ^ k * 10) + (10 * (n / 10) + n % 10) := by ring
    have hpow : 10 ^ k * 10 = 10 ^ (k + 1) := by ring
    rw [hstep, hdm, hpow]

/-- Sum of `n` consecutive block sizes starting at block index `i`. -/
def csum (size : Nat → Nat) (i : Nat) : Nat → Nat
  | 0 => 0
  | n + 1 => size i + csum size (i + 1) n

theorem csum_succ (size : Nat → Nat) (i n : Nat) :
    csum size i (n + 1) = csum size i n + size (i + n) := by
  induction n generalizing i with
  | zero => simp [csum]
  | succ n ih =>
    have h1 : csum size i (n + 1 + 1) = size i + csum size (i + 1) (n + 1) := rfl
    have h2 : csum size i (n + 1) = size i + csum size (i + 1) n := rfl
    have h3 : i + 1 + n = i + (n + 1) := by omega
    rw [h1, ih (i + 1), h2, h3]
    omega

theorem csum_mono (size : Nat → Nat) (i : Nat) {n m : Nat} (h : n ≤ m) :
    csum size i n ≤ csum size i m := by
  induction m with
  | zero => simp_all
  | succ m ih =>
    rcases Nat.lt_or_ge n (m + 1) with hlt | hge
    · have := ih (by omega)
      rw [csum_succ]
      omega
    · have : n = m + 1 := by omega
      simp [this]

/-- Fuelled search for the block containing offset `r`, starting at block
index `i`: subtracts block sizes until the remainder fits, as Go's
`absDate` does for years and months. -/
def cfind (size : Nat → Nat) : Nat → Nat → Nat → Nat × Nat
  | 0, i, r => (i, r)
  | fuel + 1, i, r =>
    if r < size i then (i, r) else cfind size fuel (i + 1) (r - size i)

theorem cfind_eq (size : Nat → Nat) (fuel i r : Nat)
    (h : r < csum size i fuel) :
    ∃ n d, n < fuel ∧ cfind size fuel i r = (i + n, d) ∧
      csum size i n + d = r ∧ d < size (i + n) := by
  induction fuel generalizing i r with
  | zero => simp [csum] at h
  | succ fuel ih =>
    by_cases hr : r < size i
    · exact ⟨0, r, by omega, by simp [cfind, hr], by simp [csum], by simpa using hr⟩
    · have hrest : r - size i < csum size (i + 1) fuel := by
        have : csum size i (fuel + 1) = size i + csum size (i + 1) fuel := rfl
        omega
      obtain ⟨n, d, hn, heq, hsum, hd⟩ := ih (i + 1) (r - size i) hrest
      refine ⟨n + 1, d, by omega, ?_, ?_, ?_⟩
      · simp only [cfind, if_neg hr]
        rw [heq]
        congr 1
        omega
      · have : csum size i (n + 1) = size i + csum size (i + 1) n := rfl
        omega
      · have : i + (n + 1) = i + 1 + n := by omega
        rw [this]
        exact hd

/-- Uniqueness-based comparison of block decompositions: a smaller total
offset yields a lexicographically smaller `(block, offset)` pair. -/
theorem cdecomp_lt (size : Nat → Nat) (i : Nat)
    {n1 d1 n2 d2 : Nat}
    (h2 : d2 < size (i + n2))
    (hlt : csum size i n1 + d1 < csum size i n2 + d2) :
    n1 < n2 ∨ (n1 = n2 ∧ d1 < d2) := by
  rcases Nat.lt_or_ge n1 n2 with h | h
  · exact Or.inl h
  · rcases Nat.lt_or_ge n2 n1 with h' | h'
    · exfalso
      have hs : csum size i (n2 + 1) = csum size i n2 + size (i + n2) := csum_succ _ _ _
      have hm : csum size i (n2 + 1) ≤ csum size i n1 := csum_mono _ _ (by omega)
      omega
    · have : n1 = n2 := by omega
      subst this
      exact Or.inr ⟨rfl, by omega⟩

/-- Leap-year rule of the proleptic Gregorian calendar, as Go's
`time.isLeap`. -/
def isLeap (y : Nat) : Bool :=
  decide (y % 4 = 0) && (!decide (y % 100 = 0) || decide (y % 400 = 0))

/-- Number of days in a civil year. -/
def daysInYear (y : Nat) : Nat := if isLeap y then 366 else 365

/-- Number of days in month `m` (1-based) of a (non-)leap year. -/
def monthDays (leap : Bool) (m : Nat) : Nat :=
  if m = 2 then (if leap then 29 else 28)
  else if m = 4 ∨ m = 6 ∨ m = 9 ∨ m = 11 then 30 else 31

theorem monthDays_pos (b : Bool) (m : Nat) : 0 < monthDays b m := by
  unfold monthDays
  split
  · split <;> omega
  · split <;> omega

/-- Block size of year number `i + 1` (block index `i` counts full years
elapsed since January 1 of year 1, the Go zero time). -/
def yearSize (i : Nat) : Nat := daysInYear (i + 1)

/-- Total days in years 1 through 9999, the full range of 4-digit years
that the RFC 3339 layout can render. -/
def maxDays : Nat := csum yearSize 0 9999

theorem daysInYear_eq_csum (y : Nat) :
    daysInYear y = csum (monthDays (isLeap y)) 1 12 := by
  unfold daysInYear
  cases isLeap y <;> decide

/-- Civil (calendar) decomposition of a timestamp. -/
structure CivilTime where
  year : Nat
  month : Nat
  day : Nat
  hour : Nat
  minute : Nat
  second : Nat
deriving DecidableEq

/-- Civil decomposition of `ls` seconds since the Go zero time
(January 1 of year 1, 00:00:00), as computed by Go's `absDate` and
`absClock`. -/
def civilFromSecs (ls : Nat) : CivilTime :=
  let days := ls / 86400
  let sod := ls % 86400
  let yr := cfind yearSize 9999 0 days
  let year := yr.1 + 1
  let mo := cfind (monthDays (isLeap year)) 12 1 yr.2
  { year := year, month := mo.1, day := mo.2 + 1,
    hour := sod / 3600, minute := sod % 3600 / 60, second := sod % 60 }

/-- Seconds since the Go zero time of a civil decomposition (total of the
full years, full months, full days and the time of day). -/
def secsFromCivil (c : CivilTime) : Nat :=
  (csum yearSize 0 (c.year - 1) + csum (monthDays (isLeap c.year)) 1 (c.month - 1)
      + (c.day - 1)) * 86400
    + c.hour * 3600 + c.minute * 60 + c.second

theorem civilFromSecs_spec (ls : Nat) (h : ls < maxDays * 86400) :
    1 ≤ (civilFromSecs ls).year ∧ (civilFromSecs ls).year ≤ 9999 ∧
    1 ≤ (civilFromSecs ls).month ∧ (civilFromSecs ls).month ≤ 12 ∧
    1 ≤ (civilFromSecs ls).day ∧
    (civilFromSecs ls).day ≤ monthDays (isLeap (civilFromSecs ls).year) (civilFromSecs ls).month ∧
    (civilFromSecs ls).hour < 24 ∧ (civilFromSecs ls).minute < 60 ∧
    (civilFromSecs ls).second < 60 ∧ secsFromCivil (civilFromSecs ls) = ls := by
  have h86 : (0 : Nat) < 86400 := by omega
  have hdays : ls / 86400 < maxDays := by
    rw [Nat.div_lt_iff_lt_mul h86]
    exact h
  obtain ⟨Y, yd, hY9999, hYeq, hYsum, hYd⟩ :=
    cfind_eq yearSize 9999 0 (ls / 86400) hdays
  have hYd2 : yd < yearSize Y := by simpa using hYd
  have hYd' : yd < csum (monthDays (isLeap (Y + 1))) 1 12 := by
    rw [← daysInYear_eq_csum]
    exact hYd2
  obtain ⟨M, md, hM12, hMeq, hMsum, hMd⟩ :=
    cfind_eq (monthDays (isLeap (Y + 1))) 12 1 yd hYd'
  have hc : civilFromSecs ls =
      { year := Y + 1, month := 1 + M, day := md + 1,
        hour := ls % 86400 / 3600, minute := ls % 86400 % 3600 / 60,
        second := ls % 86400 % 60 } := by
    simp only [civilFromSecs, hYeq, Nat.zero_add, hMeq]
  rw [hc]
  simp only
  refine ⟨by omega, by omega, by omega, by omega, by omega, ?_, ?_, ?_, ?_, ?_⟩
  · simpa using hMd
  · omega
  · omega
  · omega
  · unfold secsFromCivil
    simp only
    have e1 : Y + 1 - 1 = Y := by omega
    have e2 : 1 + M - 1 = M := by omega
    have e3 : md + 1 - 1 = md := by omega
    rw [e1, e2, e3]
    omega

/-- Lexicographic strict order on civil decompositions, the order the
RFC 3339 digit blocks spell out. -/
def civilLt (c1 c2 : CivilTime) : Prop :=
  c1.year < c2.year ∨ (c1.year = c2.year ∧
    (c1.month < c2.month ∨ (c1.month = c2.month ∧
      (c1.day < c2.day ∨ (c1.day = c2.day ∧
        (c1.hour < c2.hour ∨ (c1.hour = c2.hour ∧
          (c1.minute < c2.minute ∨
            (c1.minute = c2.minute ∧ c1.second < c2.second)))))))))

theorem civilFromSecs_lt {ls1 ls2 : Nat} (h1 : ls1 < maxDays * 86400)
    (h2 : ls2 < maxDays * 86400) (hlt : ls1 < ls2) :
    civilLt (civilFromSecs ls1) (civilFromSecs ls2) := by
  have h86 : (0 : Nat) < 86400 := by omega
  have hdays1 : ls1 / 86400 < maxDays := by
    rw [Nat.div_lt_iff_lt_mul h86]; exact h1
  have hdays2 : ls2 / 86400 < maxDays := by
    rw [Nat.div_lt_iff_lt_mul h86]; exact h2
  obtain ⟨Y1, yd1, hY1a, hYeq1, hYsum1, hYd1⟩ :=
    cfind_eq yearSize 9999 0 (ls1 / 86400) hdays1
  obtain ⟨Y2, yd2, hY2a, hYeq2, hYsum2, hYd2⟩ :=
    cfind_eq yearSize 9999 0 (ls2 / 86400) hdays2
  have hyd1 : yd1 < csum (monthDays (isLeap (Y1 + 1))) 1 12 := by
    rw [← daysInYear_eq_csum]; simpa using hYd1
  have hyd2 : yd2 < csum (monthDays (isLeap (Y2 + 1))) 1 12 := by
    rw [← daysInYear_eq_csum]; simpa using hYd2
  obtain ⟨M1, md1, hM1a, hMeq1, hMsum1, hMd1⟩ :=
    cfind_eq (monthDays (isLeap (Y1 + 1))) 12 1 yd1 hyd1
  obtain ⟨M2, md2, hM2a, hMeq2, hMsum2, hMd2⟩ :=
    cfind_eq (monthDays (isLeap (Y2 + 1))) 12 1 yd2 hyd2
  have hc1 : civilFromSecs ls1 =
      { year := Y1 + 1, month := 1 + M1, day := md1 + 1,
        hour := ls1 % 86400 / 3600, minute := ls1 % 86400 % 3600 / 60,
        second := ls1 % 86400 % 60 } := by
    simp only [civilFromSecs, hYeq1, Nat.zero_add, hMeq1]
  have hc2 : civilFromSecs ls2 =
      { year := Y2 + 1, month := 1 + M2, day := md2 + 1,
        hour := ls2 % 86400 / 3600, minute := ls2 % 86400 % 3600 / 60,
        second := ls2 % 86400 % 60 } := by
    simp only [civilFromSecs, hYeq2, Nat.zero_add, hMeq2]
  rw [hc1, hc2]
  unfold civilLt
  simp only
  rcases Nat.lt_or_ge (ls1 / 86400) (ls2 / 86400) with hdlt | hdge
  · -- the calendar days differ, so the year or month or day field grows
    have hdec := cdecomp_lt yearSize 0 (by simpa using hYd2)
      (by rw [hYsum1, hYsum2]; omega :
        csum yearSize 0 Y1 + yd1 < csum yearSize 0 Y2 + yd2)
    rcases hdec with hY | ⟨hYe, hydlt⟩
    · exact Or.inl (by omega)
    · subst hYe
      right
      refine ⟨rfl, ?_⟩
      have hdecm := cdecomp_lt (monthDays (isLeap (Y1 + 1))) 1 hMd2
        (by rw [hMsum1, hMsum2]; omega :
          csum (monthDays (isLeap (Y1 + 1))) 1 M1 + md1
            < csum (monthDays (isLeap (Y1 + 1))) 1 M2 + md2)
      rcases hdecm with hM | ⟨hMe, hmdlt⟩
      · exact Or.inl (by omega)
      · exact Or.inr ⟨by omega, Or.inl (by omega)⟩
  · -- same calendar day: the time of day decides
    have hdeq : ls1 / 86400 = ls2 / 86400 := by omega
    have hsod : ls1 % 86400 < ls2 % 86400 := by omega
    rw [hdeq] at hYeq1 hYsum1
    have hYe : Y1 = Y2 ∧ yd1 = yd2 := by
      have := hYeq1.symm.trans hYeq2
      have h1 := congrArg Prod.fst this
      have h2 := congrArg Prod.snd this
      simp at h1 h2
      omega
    obtain ⟨hYe1, hYe2⟩ := hYe
    subst hYe1
    rw [hYe2] at hMeq1 hMsum1
    have hMe : M1 = M2 ∧ md1 = md2 := by
      have := hMeq1.symm.trans hMeq2
      have h1 := congrArg Prod.fst this
      have h2 := congrArg Prod.snd this
      simp at h1 h2
      omega
    obtain ⟨hMe1, hMe2⟩ := hMe
    subst hMe1
    right
    refine ⟨rfl, Or.inr ⟨rfl, Or.inr ⟨by omega, ?_⟩⟩⟩
    omega

/-- Character sequence of the RFC 3339 date-time part
(`"2006-01-02T15:04:05"`) followed by the zone suffix. -/
def renderCivil (c : CivilTime) (suffix : List Char) : List Char :=
  natToPad 4 c.year ++ ('-' :: (natToPad 2 c.month ++ ('-' :: (natToPad 2 c.day
    ++ ('T' :: (natToPad 2 c.hour ++ (':' :: (natToPad 2 c.minute
    ++ (':' :: (natToPad 2 c.second ++ suffix))))))))))

/-- Zone suffix rendered by the `"Z07:00"` verb: `Z` for UTC, otherwise a
signed `hh:mm` offset.  The zone offset is modelled in whole minutes of
`tz`, which covers every real-world `time.Location`. -/
def offsetSuffix (tz : Int) : List Char :=
  if tz = 0 then ['Z']
  else (if 0 < tz then '+' else '-')
    :: (natToPad 2 (tz.natAbs / 60) ++ ':' :: natToPad 2 (tz.natAbs % 60))

/-- Model of `t.Format(time.RFC3339)` for a `time.Time` `t` seconds after
the Go zero time, carried in a location with a fixed offset of `tz`
minutes (as `time.Now()` carries `time.Local`).  Times before the zero
time or after year 9999 are outside the modelled range and render as the
empty string; every theorem below guards the range explicitly. -/
def goFormat (tz t : Int) : String :=
  if t + tz * 60 < 0 then String.mk []
  else String.mk (renderCivil (civilFromSecs (t + tz * 60).toNat) (offsetSuffix tz))

/-- Model of Go's `Time.Truncate`: rounding down to a multiple of the
resolution since the zero time; a non-positive resolution leaves the time
unchanged, exactly as in Go. -/
def goTruncate (t res : Int) : Int := if res ≤ 0 then t else t - t % res

/-- Range guard: `t` renders to (and parses back from) a well-formed
4-digit-year RFC 3339 string in a zone with offset `tz` minutes. -/
def TimeOK (tz t : Int) : Prop :=
  0 ≤ t + tz * 60 ∧ t + tz * 60 < (maxDays : Int) * 86400

instance (tz t : Int) : Decidable (TimeOK tz t) := by
  unfold TimeOK
  infer_instance

/-- Fixed-width numeric field read, as `time.Parse` does for each block of
the RFC 3339 layout. -/
def readBlock (k : Nat) (l : List Char) : Option (Nat × List Char) :=
  if (l.take k).length = k then
    match parseDigits (l.take k) 0 with
    | some n => some (n, l.drop k)
    | none => none
  else none

/-- Single expected separator character of the layout. -/
def expectChar (c : Char) : List Char → Option (List Char)
  | [] => none
  | d :: l => if d = c then some l else none

/-- Zone-suffix parse of the `"Z07:00"` verb. -/
def parseOffsetL : List Char → Option Int
  | [] => none
  | c :: rest =>
    if c = 'Z' then (if rest = [] then some 0 else none)
    else if c = '+' ∨ c = '-' then
      match readBlock 2 rest with
      | none => none
      | some (oh, r2) =>
        match expectChar ':' r2 with
        | none => none
        | some r3 =>
          match readBlock 2 r3 with
          | none => none
          | some (om, r4) =>
            if r4 = [] ∧ oh ≤ 23 ∧ om ≤ 59 then
              (if c = '+' then some ((oh * 60 + om : Nat) : Int)
               else some (-((oh * 60 + om : Nat) : Int)))
            else none
    else none

/-- Model of `time.Parse(time.RFC3339, s)`: reads the fixed-width digit
blocks and separators of the layout, validates the field ranges as Go
does, and yields the absolute time (seconds since the Go zero time,
offset applied).  Returns `none` (Go: a `ParseError`) on any mismatch,
in particular on the empty string. -/
def parseL (l : List Char) : Option Int :=
  match readBlock 4 l with
  | none => none
  | some (y, l1) =>
  match expectChar '-' l1 with
  | none => none
  | some l2 =>
  match readBlock 2 l2 with
  | none => none
  | some (mo, l3) =>
  match expectChar '-' l3 with
  | none => none
  | some l4 =>
  match readBlock 2 l4 with
  | none => none
  | some (dy, l5) =>
  match expectChar 'T' l5 with
  | none => none
  | some l6 =>
  match readBlock 2 l6 with
  | none => none
  | some (hh, l7) =>
  match expectChar ':' l7 with
  | none => none
  | some l8 =>
  match readBlock 2 l8 with
  | none => none
  | some (mi, l9) =>
  match expectChar ':' l9 with
  | none => none
  | some l10 =>
  match readBlock 2 l10 with
  | none => none
  | some (ss, l11) =>
  match parseOffsetL l11 with
  | none => none
  | some off =>
    if 1 ≤ mo ∧ mo ≤ 12 ∧ 1 ≤ dy ∧ dy ≤ monthDays (isLeap y) mo
        ∧ hh ≤ 23 ∧ mi ≤ 59 ∧ ss ≤ 59 then
      some ((secsFromCivil ⟨y, mo, dy, hh, mi, ss⟩ : Int) - off * 60)
    else none

/-- String-level entry point of the parse model. -/
def parseRFC3339 (s : String) : Option Int := parseL s.data

theorem parseRFC3339_empty : parseRFC3339 (String.mk []) = none := rfl

theorem take_drop_append {α : Type} (A B : List α) {k : Nat}
    (h : A.length = k) : (A ++ B).take k = A ∧ (A ++ B).drop k = B := by
  induction A generalizing k with
  | nil =>
    simp at h
    subst h
    simp
  | cons a as ih =>
    cases k with
    | zero => simp at h
    | succ k =>
      have hk : as.length = k := by simpa using h
      obtain ⟨h1, h2⟩ := ih hk
      simp [List.take, List.drop, h1, h2]

theorem readBlock_pad {k n : Nat} (h : n < 10 ^ k) (rest : List Char) :
    readBlock k (natToPad k n ++ rest) = some (n, rest) := by
  have hlen : (natToPad k n).length = k := natToPad_length k n
  obtain ⟨htake, hdrop⟩ := take_drop_append (natToPad k n) rest hlen
  unfold readBlock
  rw [htake, hdrop, hlen, if_pos rfl]
  rw [parseDigits_natToPad 0 h]
  simp

theorem expectChar_cons (c : Char) (l : List Char) :
    expectChar c (c :: l) = some l := by
  simp [expectChar]

theorem parseOffsetL_suffix {tz : Int} (h : tz.natAbs < 1440) :
    parseOffsetL (offsetSuffix tz) = some tz := by
  rcases lt_trichotomy tz 0 with hneg | hzero | hpos
  · have hne : tz ≠ 0 := by omega
    have hnotpos : ¬ (0 < tz) := by omega
    have hoh : tz.natAbs / 60 < 10 ^ 2 := by omega
    have hom : tz.natAbs % 60 < 10 ^ 2 := by omega
    have hrb : readBlock 2 (natToPad 2 (tz.natAbs % 60)) = some (tz.natAbs % 60, []) := by
      have := readBlock_pad hom []
      simpa using this
    unfold offsetSuffix
    rw [if_neg hne, if_neg hnotpos]
    simp only [parseOffsetL, readBlock_pad hoh, expectChar_cons, hrb]
    rw [if_pos (show ('-' = '+' ∨ True) from Or.inr trivial),
      if_pos (show True ∧ tz.natAbs / 60 ≤ 23 ∧ tz.natAbs % 60 ≤ 59
        from ⟨trivial, by omega, by omega⟩),
      if_neg (show ¬ ('-' = '+') by decide)]
    have hsplit : tz.natAbs / 60 * 60 + tz.natAbs % 60 = tz.natAbs := by omega
    have habs : (tz.natAbs : Int) = -tz := by
      rw [← Int.natAbs_neg]
      exact Int.natAbs_of_nonneg (by omega)
    rw [hsplit, habs, neg_neg]
    rw [if_neg (show ¬ ('-' = 'Z') by decide)]
  · subst hzero
    rfl
  · have hne : tz ≠ 0 := by omega
    have hoh : tz.natAbs / 60 < 10 ^ 2 := by omega
    have hom : tz.natAbs % 60 < 10 ^ 2 := by omega
    have hrb : readBlock 2 (natToPad 2 (tz.natAbs % 60)) = some (tz.natAbs % 60, []) := by
      have := readBlock_pad hom []
      simpa using this
    unfold offsetSuffix
    rw [if_neg hne, if_pos hpos]
    simp only [parseOffsetL, readBlock_pad hoh, expectChar_cons, hrb]
    rw [if_pos (show (True ∨ '+' = '-') from Or.inl trivial),
      if_pos (show True ∧ tz.natAbs / 60 ≤ 23 ∧ tz.natAbs % 60 ≤ 59
        from ⟨trivial, by omega, by omega⟩),
      if_pos (show True from trivial)]
    have hsplit : tz.natAbs / 60 * 60 + tz.natAbs % 60 = tz.natAbs := by omega
    have habs : (tz.natAbs : Int) = tz := Int.natAbs_of_nonneg (le_of_lt hpos)
    rw [hsplit, habs]
    rw [if_neg (show ¬ ('+' = 'Z') by decide)]

theorem parseRFC3339_goFormat {tz t : Int} (htz : tz.natAbs < 1440)
    (ht : TimeOK tz t) : parseRFC3339 (goFormat tz t) = some t := by
  obtain ⟨h0, h1⟩ := ht
  have hnotneg : ¬ (t + tz * 60 < 0) := by omega
  have hls : (t + tz * 60).toNat < maxDays * 86400 := by omega
  obtain ⟨hy1, hy2, hm1, hm2, hd1, hd2, hh, hmin, hsec, hsum⟩ :=
    civilFromSecs_spec (t + tz * 60).toNat hls
  unfold parseRFC3339 goFormat
  rw [if_neg hnotneg]
  show parseL (renderCivil (civilFromSecs (t + tz * 60).toNat) (offsetSuffix tz)) = some t
  set c := civilFromSecs (t + tz * 60).toNat with hc
  have hby : c.year < 10 ^ 4 := by omega
  have hbm : c.month < 10 ^ 2 := by omega
  have hbd : c.day < 10 ^ 2 := by
    have := monthDays_pos (isLeap c.year) c.month
    have hmd : monthDays (isLeap c.year) c.month ≤ 31 := by
      unfold monthDays
      split
      · split <;> omega
      · split <;> omega
    omega
  have hbh : c.hour < 10 ^ 2 := by omega
  have hbmin : c.minute < 10 ^ 2 := by omega
  have hbsec : c.second < 10 ^ 2 := by omega
  unfold renderCivil
  simp only [parseL, readBlock_pad hby, expectChar_cons, readBlock_pad hbm,
    readBlock_pad hbd, readBlock_pad hbh, readBlock_pad hbmin,
    readBlock_pad hbsec, parseOffsetL_suffix htz]
  have hcond : 1 ≤ c.month ∧ c.month ≤ 12 ∧ 1 ≤ c.day
      ∧ c.day ≤ monthDays (isLeap c.year) c.month
      ∧ c.hour ≤ 23 ∧ c.minute ≤ 59 ∧ c.second ≤ 59 := by
    exact ⟨hm1, hm2, hd1, hd2, by omega, by omega, by omega⟩
  rw [if_pos hcond]
  have heta : (⟨c.year, c.month, c.day, c.hour, c.minute, c.second⟩ : CivilTime) = c := rfl
  rw [heta, hsum]
  congr 1
  omega

theorem lexLt_block_lt {k a b : Nat} (r1 r2 : List Char) (hab : a < b)
    (hb : b < 10 ^ k) :
    lexLt (natToPad k a ++ r1) (natToPad k b ++ r2) = true :=
  lexLt_append_of_lt r1 r2 (by rw [natToPad_length, natToPad_length])
    (natToPad_lexLt hab hb)

theorem lexLt_block_eq {k a : Nat} (r1 r2 : List Char) :
    lexLt (natToPad k a ++ r1) (natToPad k a ++ r2) = lexLt r1 r2 :=
  lexLt_append_same _ _ _

theorem lexLt_cons_same (c : Char) (r1 r2 : List Char) :
    lexLt (c :: r1) (c :: r2) = lexLt r1 r2 := by
  simp [lexLt]

theorem renderCivil_lexLt {c1 c2 : CivilTime} (suffix : List Char)
    (hb1y : c1.year < 10 ^ 4) (hb2y : c2.year < 10 ^ 4)
    (hb2m : c2.month < 10 ^ 2) (hb2d : c2.day < 10 ^ 2)
    (hb2h : c2.hour < 10 ^ 2) (hb2min : c2.minute < 10 ^ 2)
    (hb2s : c2.second < 10 ^ 2) (h : civilLt c1 c2) :
    lexLt (renderCivil c1 suffix) (renderCivil c2 suffix) = true := by
  unfold renderCivil
  rcases h with hy | ⟨hy, hm | ⟨hm, hd | ⟨hd, hh | ⟨hh, hmin | ⟨hmin, hs⟩⟩⟩⟩⟩
  · exact lexLt_block_lt _ _ hy hb2y
  · rw [hy, lexLt_block_eq, lexLt_cons_same]
    exact lexLt_block_lt _ _ hm hb2m
  · rw [hy, hm, lexLt_block_eq, lexLt_cons_same, lexLt_block_eq, lexLt_cons_same]
    exact lexLt_block_lt _ _ hd hb2d
  · rw [hy, hm, hd, lexLt_block_eq, lexLt_cons_same, lexLt_block_eq,
      lexLt_cons_same, lexLt_block_eq, lexLt_cons_same]
    exact lexLt_block_lt _ _ hh hb2h
  · rw [hy, hm, hd, hh, lexLt_block_eq, lexLt_cons_same, lexLt_block_eq,
      lexLt_cons_same, lexLt_block_eq, lexLt_cons_same, lexLt_block_eq,
      lexLt_cons_same]
    exact lexLt_block_lt _ _ hmin hb2min
  · rw [hy, hm, hd, hh, hmin, lexLt_block_eq, lexLt_cons_same, lexLt_block_eq,
      lexLt_cons_same, lexLt_block_eq, lexLt_cons_same, lexLt_block_eq,
      lexLt_cons_same, lexLt_block_eq, lexLt_cons_same]
    exact lexLt_block_lt _ _ hs hb2s

/-- Bounds of the civil fields of any in-range timestamp, in the powers of
ten of the fixed-width render. -/
theorem civilFromSecs_bounds (ls : Nat) (h : ls < maxDays * 86400) :
    (civilFromSecs ls).year < 10 ^ 4 ∧ (civilFromSecs ls).month < 10 ^ 2 ∧
    (civilFromSecs ls).day < 10 ^ 2 ∧ (civilFromSecs ls).hour < 10 ^ 2 ∧
    (civilFromSecs ls).minute < 10 ^ 2 ∧ (civilFromSecs ls).second < 10 ^ 2 := by
  obtain ⟨hy1, hy2, hm1, hm2, hd1, hd2, hh, hmin, hsec, hsum⟩ :=
    civilFromSecs_spec ls h
  have hmd : monthDays (isLeap (civilFromSecs ls).year) (civilFromSecs ls).month ≤ 31 := by
    unfold monthDays
    split
    · split <;> omega
    · split <;> omega
  exact ⟨by omega, by omega, by omega, by omega, by omega, by omega⟩

/-- Chronological order of in-range timestamps in a common fixed-offset
zone implies byte-lexicographic order of their RFC 3339 renderings: the
property the spec relies on for range scans. -/
theorem goFormat_lexLt {tz t1 t2 : Int} (h1 : TimeOK tz t1) (h2 : TimeOK tz t2)
    (hlt : t1 < t2) :
    lexLt (goFormat tz t1).data (goFormat tz t2).data = true := by
  obtain ⟨h10, h11⟩ := h1
  obtain ⟨h20, h21⟩ := h2
  have hn1 : ¬ (t1 + tz * 60 < 0) := by omega
  have hn2 : ¬ (t2 + tz * 60 < 0) := by omega
  have hls1 : (t1 + tz * 60).toNat < maxDays * 86400 := by omega
  have hls2 : (t2 + tz * 60).toNat < maxDays * 86400 := by omega
  have hlsmono : (t1 + tz * 60).toNat < (t2 + tz * 60).toNat := by omega
  unfold goFormat
  rw [if_neg hn1, if_neg hn2]
  show lexLt (renderCivil (civilFromSecs (t1 + tz * 60).toNat) (offsetSuffix tz))
      (renderCivil (civilFromSecs (t2 + tz * 60).toNat) (offsetSuffix tz)) = true
  obtain ⟨hb1y, _, _, _, _, _⟩ := civilFromSecs_bounds _ hls1
  obtain ⟨hb2y, hb2m, hb2d, hb2h, hb2min, hb2s⟩ := civilFromSecs_bounds _ hls2
  exact renderCivil_lexLt _ hb1y hb2y hb2m hb2d hb2h hb2min hb2s
    (civilFromSecs_lt hls1 hls2 hlsmono)

/-- Reflection: byte order of two in-range keys decides their
chronological order, and distinct in-range times have distinct keys. -/
theorem goFormat_lt_iff {tz t1 t2 : Int} (htz : tz.natAbs < 1440)
    (h1 : TimeOK tz t1) (h2 : TimeOK tz t2) :
    lexLt (goFormat tz t1).data (goFormat tz t2).data = true ↔ t1 < t2 := by
  constructor
  · intro h
    by_contra hge
    rcases lt_or_eq_of_le (le_of_not_lt hge) with hlt | heq
    · have := goFormat_lexLt h2 h1 hlt
      have := lexLt_asymm this
      rw [this] at h
      exact Bool.false_ne_true h
    · subst heq
      rw [lexLt_irrefl] at h
      exact Bool.false_ne_true h
  · exact goFormat_lexLt h1 h2

theorem goFormat_inj {tz t1 t2 : Int} (htz : tz.natAbs < 1440)
    (h1 : TimeOK tz t1) (h2 : TimeOK tz t2)
    (heq : goFormat tz t1 = goFormat tz t2) : t1 = t2 := by
  have p1 := parseRFC3339_goFormat htz h1
  have p2 := parseRFC3339_goFormat htz h2
  rw [heq] at p1
  rw [p2] at p1
  exact Option.some_injective _ p1.symm

/-- Truncation facts matching the spec's description of the bucket start:
the result is the greatest multiple of a positive resolution not
exceeding the time. -/
theorem goTruncate_spec (t res : Int) (hres : 0 < res) :
    goTruncate t res % res = 0 ∧ goTruncate t res ≤ t ∧ t < goTruncate t res + res := by
  unfold goTruncate
  rw [if_neg (by omega : ¬ res ≤ 0)]
  have hmod := Int.emod_nonneg t (by omega : res ≠ 0)
  have hlt := Int.emod_lt_of_pos t hres
  refine ⟨?_, by omega, by omega⟩
  have : t - t % res = res * (t / res) := by
    have := Int.ediv_add_emod t res
    omega
  rw [this]
  exact Int.mul_emod_right _ _

/-- Contents of one bbolt bucket: `(key, value)` pairs in ascending byte
order of keys, the order `Cursor` iteration visits them. -/
abbrev Bucket : Type := List (String × String)

theorem str_data_inj {a b : String} (h : a.data = b.data) : a = b := by
  cases a
  cases b
  exact congrArg String.mk h

/-- Model of `Bucket.Put`: bbolt keeps keys unique and byte-ordered, so a
put is an ordered insert that replaces an equal key in place. -/
def bput : Bucket → String → String → Bucket
  | [], k, v => [(k, v)]
  | e :: rest, k, v =>
    if lexLt k.data e.1.data then (k, v) :: e :: rest
    else if k = e.1 then (k, v) :: rest
    else e :: bput rest k v

/-- Invariant of every reachable bucket: keys strictly ascending in byte
order (hence unique). -/
def BSorted (b : Bucket) : Prop :=
  b.Pairwise (fun e1 e2 => lexLt e1.1.data e2.1.data = true)

theorem bput_ne_nil (b : Bucket) (k v : String) : bput b k v ≠ [] := by
  cases b with
  | nil => simp [bput]
  | cons e rest =>
    unfold bput
    split
    · simp
    · split <;> simp

theorem bput_mem {b : Bucket} {k v : String} {e : String × String}
    (h : e ∈ bput b k v) : e = (k, v) ∨ e ∈ b := by
  induction b with
  | nil => simpa [bput] using h
  | cons hd rest ih =>
    unfold bput at h
    split at h
    · rcases List.mem_cons.mp h with h1 | h1
      · exact Or.inl h1
      · exact Or.inr h1
    · split at h
      · rcases List.mem_cons.mp h with h1 | h1
        · exact Or.inl h1
        · exact Or.inr (List.mem_cons_of_mem _ h1)
      · rcases List.mem_cons.mp h with h1 | h1
        · exact Or.inr (by simp [h1])
        · rcases ih h1 with h2 | h2
          · exact Or.inl h2
          · exact Or.inr (List.mem_cons_of_mem _ h2)

theorem lexLt_of_ne_of_not_lt {k k2 : String}
    (hnlt : lexLt k.data k2.data = false) (hne : k ≠ k2) :
    lexLt k2.data k.data = true := by
  rcases lexLt_total k.data k2.data with h | h | h
  · rw [h] at hnlt
    exact absurd hnlt (by simp)
  · exact absurd (str_data_inj h) hne
  · exact h

theorem bput_sorted {b : Bucket} (hs : BSorted b) (k v : String) :
    BSorted (bput b k v) := by
  induction b with
  | nil => simp [bput, BSorted]
  | cons hd rest ih =>
    rw [BSorted, List.pairwise_cons] at hs
    obtain ⟨hhd, hrest⟩ := hs
    unfold bput
    split
    · rename_i hlt
      rw [BSorted, List.pairwise_cons]
      refine ⟨?_, ?_⟩
      · intro e he
        rcases List.mem_cons.mp he with h | h
        · rw [h]
          exact hlt
        · exact lexLt_trans hlt (hhd e h)
      · rw [BSorted, List.pairwise_cons] at *
        exact ⟨hhd, hrest⟩
    · split
      · rename_i hnlt heq
        rw [BSorted, List.pairwise_cons]
        refine ⟨?_, hrest⟩
        intro e he
        rw [heq]
        exact hhd e he
      · rename_i hnlt hne
        rw [BSorted, List.pairwise_cons]
        refine ⟨?_, ih hrest⟩
        intro e he
        rcases bput_mem he with h | h
        · rw [h]
          exact lexLt_of_ne_of_not_lt (by simpa using hnlt) hne
        · exact hhd e h

theorem getLast?_cons_of_ne_nil {α : Type} (a : α) {l : List α}
    (h : l ≠ []) : (a :: l).getLast? = l.getLast? := by
  cases l with
  | nil => exact absurd rfl h
  | cons b bs => simp [List.getLast?]

theorem bput_getLast {b : Bucket} {k v : String} (hs : BSorted b)
    (hmax : ∀ e ∈ b, lexLt k.data e.1.data = false) :
    (bput b k v).getLast? = some (k, v) := by
  induction b with
  | nil => rfl
  | cons hd rest ih =>
    rw [BSorted, List.pairwise_cons] at hs
    obtain ⟨hhd, hrest⟩ := hs
    unfold bput
    split
    · rename_i hlt
      have := hmax hd (by simp)
      rw [this] at hlt
      exact absurd hlt (by simp)
    · split
      · rename_i hnlt heq
        have hnil : rest = [] := by
          cases rest with
          | nil => rfl
          | cons r rs =>
            have h1 := hhd r (by simp)
            have h2 := hmax r (by simp)
            rw [← heq] at h1
            rw [h1] at h2
            exact absurd h2 (by simp)
        subst hnil
        rfl
      · rename_i hnlt hne
        rw [getLast?_cons_of_ne_nil _ (bput_ne_nil _ _ _)]
        exact ih hrest (fun e he => hmax e (by simp [he]))

theorem key_ne_of_lexLt {k1 k2 : String} (h : lexLt k1.data k2.data = true) :
    k1 ≠ k2 := by
  intro he
  subst he
  rw [lexLt_irrefl] at h
  exact Bool.false_ne_true h

theorem filter_key_nil {l : Bucket} {k : String} (h : ∀ e ∈ l, e.1 ≠ k) :
    l.filter (fun e => e.1 == k) = [] := by
  induction l with
  | nil => rfl
  | cons hd rest ih =>
    have hne : (hd.1 == k) = false := by
      simpa using h hd (by simp)
    simp only [List.filter_cons, hne]
    exact ih (fun e he => h e (by simp [he]))

theorem bput_filter_key {b : Bucket} (hs : BSorted b) (k v : String) :
    (bput b k v).filter (fun e => e.1 == k) = [(k, v)] := by
  induction b with
  | nil => simp [bput]
  | cons hd rest ih =>
    rw [BSorted, List.pairwise_cons] at hs
    obtain ⟨hhd, hrest⟩ := hs
    unfold bput
    split
    · rename_i hlt
      have h1 : (hd.1 == k) = false := by
        simpa using Ne.symm (key_ne_of_lexLt hlt)
      have hrestne : ∀ e ∈ rest, e.1 ≠ k := fun e he =>
        Ne.symm (key_ne_of_lexLt (lexLt_trans hlt (hhd e he)))
      simp [List.filter_cons, h1, filter_key_nil hrestne]
    · split
      · rename_i hnlt heq
        have hrestne : ∀ e ∈ rest, e.1 ≠ k := by
          intro e he hek
          have hx := hhd e he
          rw [← heq, hek] at hx
          rw [lexLt_irrefl] at hx
          exact Bool.false_ne_true hx
        simp [List.filter_cons, filter_key_nil hrestne]
      · rename_i hnlt hne
        have h1 : (hd.1 == k) = false := by
          simp only [beq_eq_false_iff_ne, ne_eq]
          intro he
          exact hne he.symm
        simp only [List.filter_cons, h1]
        exact ih hrest

theorem BSorted_filter_key_len {b : Bucket} (hs : BSorted b) (k : String) :
    (b.filter (fun e => e.1 == k)).length ≤ 1 := by
  induction b with
  | nil => simp
  | cons hd rest ih =>
    rw [BSorted, List.pairwise_cons] at hs
    obtain ⟨hhd, hrest⟩ := hs
    by_cases hk : hd.1 = k
    · have hrestne : ∀ e ∈ rest, e.1 ≠ k := by
        intro e he hek
        have hx := hhd e he
        rw [hk, hek] at hx
        rw [lexLt_irrefl] at hx
        exact Bool.false_ne_true hx
      simp [List.filter_cons, hk, filter_key_nil hrestne]
    · have h1 : (hd.1 == k) = false := by simpa using hk
      simp only [List.filter_cons, h1]
      exact ih hrest

/-- The `SensorValues` struct: two `float32` measurements.  `F` stands in
for `float32`; nothing in the store inspects the numbers, they only pass
through the JSON codec. -/
structure SensorValues (F : Type) where
  Temperature : F
  Humidity : F
deriving DecidableEq

/-- The `TimedSensorValues` struct: a bucket-boundary timestamp (seconds
since the Go zero time) paired with the decoded values. -/
structure TimedSensorValues (F : Type) where
  Timestamp : Int
  Values : SensorValues F
deriving DecidableEq

/-- Error taxonomy of the spec for the returned Go `error` values:
`encoding` for `json.Marshal` failures, `decoding` for `time.Parse` or
`json.Unmarshal` failures on stored data, `storage` for engine
transaction failures. -/
inductive GoError where
  | encoding
  | decoding
  | storage
deriving DecidableEq

/-- Outcome of a store operation: a returned value, a returned Go error,
or a runtime panic (nil bucket dereference).  A panic aborts the program;
it is not a returned error. -/
inductive Res (α : Type) where
  | ok : α → Res α
  | err : GoError → Res α
  | panicked : Res α
deriving DecidableEq

/-- The root `"sensors"` bucket: one child bucket per sensor identity. -/
abbrev DBm : Type := List (String × Bucket)

/-- Model of `root.Bucket([]byte(sensorID))`: `none` is bbolt's nil
bucket pointer for a namespace that was never created. -/
def findB : DBm → String → Option Bucket
  | [], _ => none
  | (i, b) :: rest, sid => if i = sid then some b else findB rest sid

/-- Replacement of one sensor's bucket inside the root namespace. -/
def updB : DBm → String → Bucket → DBm
  | [], _, _ => []
  | (i, b) :: rest, sid, nb =>
    if i = sid then (i, nb) :: rest else (i, b) :: updB rest sid nb

/-- Embedding of `convertToValues(k, v)` from `main.go` lines 281-297:
parse the key as an RFC 3339 timestamp, unmarshal the value; any failure
is returned (a `DecodingError` in the spec's taxonomy). -/
def convertToValues {F : Type} (unmarshal : String → Option (SensorValues F))
    (k v : String) : Res (TimedSensorValues F) :=
  match parseRFC3339 k with
  | none => .err .decoding
  | some t =>
    match unmarshal v with
    | none => .err .decoding
    | some vals => .ok ⟨t, vals⟩

/-- Embedding of `StoreValues` (`main.go` lines 193-214): key the current
time truncated to the resolution, marshal the values, put into the
sensor's bucket.  A marshal failure is returned before the bucket is
touched; with the namespace missing, `b` is nil and `b.Put` panics. -/
def storeValues {F : Type} (marshal : SensorValues F → Option String)
    (tz res : Int) (db : DBm) (sid : String) (values : SensorValues F)
    (now : Int) : Res DBm :=
  let key := goFormat tz (goTruncate now res)
  match marshal values with
  | none => .err .encoding
  | some s =>
    match findB db sid with
    | none => .panicked
    | some b => .ok (updB db sid (bput b key s))

/-- Embedding of `ReadLastValue` (`main.go` lines 216-234): position the
cursor at the last key and decode it.  On an empty bucket `Cursor.Last`
yields nil key and value, which Go stringifies to `""`, and
`convertToValues` is still called on them. -/
def readLastValue {F : Type} (unmarshal : String → Option (SensorValues F))
    (db : DBm) (sid : String) : Res (Option (TimedSensorValues F)) :=
  match findB db sid with
  | none => .panicked
  | some b =>
    let e := b.getLast?.getD ("", "")
    match convertToValues unmarshal e.1 e.2 with
    | .ok tv => .ok (some tv)
    | .err ge => .err ge
    | .panicked => .panicked

/-- The cursor loop of `ReadValues`: iterate in key order from the seek
position, stop at the first key after `endT` or at the end, abort on any
decode failure. -/
def scanLoop {F : Type} (unmarshal : String → Option (SensorValues F))
    (endT : Int) : List (String × String) → Res (List (TimedSensorValues F))
  | [] => .ok []
  | (k, v) :: rest =>
    match parseRFC3339 k with
    | none => .err .decoding
    | some t =>
      if endT < t then .ok []
      else
        match convertToValues unmarshal k v with
        | .err ge => .err ge
        | .panicked => .panicked
        | .ok tv =>
          match scanLoop unmarshal endT rest with
          | .ok l => .ok (tv :: l)
          | r => r

/-- Embedding of `ReadValues` (`main.go` lines 236-279): the window end is
`now` truncated; the seek key is `now - d` truncated for positive
durations and `now + d` truncated otherwise; `Cursor.Seek` positions at
the first key not below the seek key. -/
def readValues {F : Type} (unmarshal : String → Option (SensorValues F))
    (tz res : Int) (db : DBm) (sid : String) (d : Int) (now : Int) :
    Res (List (TimedSensorValues F)) :=
  let endT := goTruncate now res
  let start := if 0 < d then goFormat tz (goTruncate (now - d) res)
    else goFormat tz (goTruncate (now + d) res)
  match findB db sid with
  | none => .panicked
  | some b => scanLoop unmarshal endT (b.dropWhile (fun e => lexLt e.1.data start.data))

/-- One channel event observed by the writer goroutine: a received value
(tagged with the wall-clock instant `time.Now()` will return during its
write) or the channel-closed signal. -/
inductive Msg (F : Type) where
  | val : Int → SensorValues F → Msg F
  | closed : Msg F

/-- State of the writer goroutine after consuming a message sequence. -/
inductive RoutState where
  | running
  | stopped
  | crashed
deriving DecidableEq

/-- Embedding of `storeValuesRoutine` (`main.go` lines 176-191): consume
messages in order; a received value is stored with the `StoreValues`
error discarded; observing closure stops the loop before any further
receive; a panic inside `StoreValues` kills the goroutine. -/
def storeValuesRoutine {F : Type} (marshal : SensorValues F → Option String)
    (tz res : Int) (sid : String) : DBm → List (Msg F) → DBm × RoutState
  | db, [] => (db, .running)
  | db, .closed :: _ => (db, .stopped)
  | db, .val now v :: rest =>
    match storeValues marshal tz res db sid v now with
    | .ok db2 => storeValuesRoutine marshal tz res sid db2 rest
    | .err _ => storeValuesRoutine marshal tz res sid db rest
    | .panicked => (db, .crashed)

/-- Effect of one `StoreValues` call on the sensor's own bucket (the
bucket is left unchanged when marshalling fails, since the error returns
before the put). -/
def writeB {F : Type} (marshal : SensorValues F → Option String)
    (tz res : Int) (b : Bucket) (now : Int) (v : SensorValues F) : Bucket :=
  match marshal v with
  | none => b
  | some s => bput b (goFormat tz (goTruncate now res)) s

/-- Bucket contents after a sequence of `StoreValues` calls for one
sensor, each tagged with its wall-clock instant. -/
def runWrites {F : Type} (marshal : SensorValues F → Option String)
    (tz res : Int) : List (Int × SensorValues F) → Bucket → Bucket
  | [], b => b
  | (t, v) :: rest, b => runWrites marshal tz res rest (writeB marshal tz res b t v)

/-- Database after one `StoreValues` call whose returned error (if any)
is discarded, as the writer routine does. -/
def applySV {F : Type} (marshal : SensorValues F → Option String)
    (tz res : Int) (sid : String) (db : DBm) (p : Int × SensorValues F) : DBm :=
  match storeValues marshal tz res db sid p.2 p.1 with
  | .ok db2 => db2
  | _ => db

theorem findB_updB {db : DBm} {sid : String} {b : Bucket}
    (h : findB db sid = some b) (nb : Bucket) :
    findB (updB db sid nb) sid = some nb := by
  induction db with
  | nil => simp [findB] at h
  | cons e rest ih =>
    unfold findB at h
    unfold updB
    split at h
    · rename_i hi
      rw [if_pos hi]
      unfold findB
      rw [if_pos hi]
    · rename_i hi
      rw [if_neg hi]
      unfold findB
      rw [if_neg hi]
      exact ih h

/-- Decoded entry contribution of `ReadValues`: the entry decodes and its
timestamp lies in the closed window `[startT, endT]`. -/
def windowDecode {F : Type} (unmarshal : String → Option (SensorValues F))
    (startT endT : Int) (e : String × String) : Option (TimedSensorValues F) :=
  match convertToValues unmarshal e.1 e.2 with
  | .ok tv => if startT ≤ tv.Timestamp ∧ tv.Timestamp ≤ endT then some tv else none
  | _ => none

theorem convertToValues_img {F : Type}
    {unmarshal : String → Option (SensorValues F)} {tz t : Int} {v : String}
    (htz : tz.natAbs < 1440) (ht : TimeOK tz t) {vals : SensorValues F}
    (hv : unmarshal v = some vals) :
    convertToValues unmarshal (goFormat tz t) v = .ok ⟨t, vals⟩ := by
  unfold convertToValues
  rw [parseRFC3339_goFormat htz ht, hv]

theorem scanLoop_spec {F : Type} (unmarshal : String → Option (SensorValues F))
    (tz : Int) (htz : tz.natAbs < 1440) (startT endT : Int)
    (hstartOK : TimeOK tz startT) :
    ∀ (l : List (String × String)),
    l.Pairwise (fun e1 e2 => lexLt e1.1.data e2.1.data = true) →
    (∀ e ∈ l, ∃ t, TimeOK tz t ∧ e.1 = goFormat tz t ∧ (unmarshal e.2).isSome) →
    (∀ e ∈ l, lexLt e.1.data (goFormat tz startT).data = false) →
    scanLoop unmarshal endT l = .ok (l.filterMap (windowDecode unmarshal startT endT)) := by
  intro l
  induction l with
  | nil => intro _ _ _; rfl
  | cons e rest ih =>
    intro hsorted himg hge
    rw [List.pairwise_cons] at hsorted
    obtain ⟨hhd, hrest⟩ := hsorted
    obtain ⟨t, htOK, hkey, hdec⟩ := himg e (by simp)
    obtain ⟨vals, hvals⟩ := Option.isSome_iff_exists.mp hdec
    obtain ⟨k, v⟩ := e
    simp only at hkey hvals
    subst hkey
    have hts : startT ≤ t := by
      by_contra hlt
      have := goFormat_lexLt htOK hstartOK (by omega)
      rw [hge ⟨goFormat tz t, v⟩ (by simp)] at this
      exact Bool.false_ne_true this
    have hparse := parseRFC3339_goFormat htz htOK
    have hconv : convertToValues unmarshal (goFormat tz t) v = .ok ⟨t, vals⟩ :=
      convertToValues_img htz htOK hvals
    by_cases hend : endT < t
    · -- the first entry is already past the window end: the loop breaks
      -- and, the keys being sorted, no later entry is in the window either
      have hnone : ∀ e2 ∈ (goFormat tz t, v) :: rest,
          windowDecode unmarshal startT endT e2 = none := by
        intro e2 he2
        rcases List.mem_cons.mp he2 with h2 | h2
        · rw [h2]
          unfold windowDecode
          rw [hconv]
          simp only
          rw [if_neg (by simp; omega)]
        · obtain ⟨t2, ht2OK, hkey2, hdec2⟩ := himg e2 (by simp [h2])
          unfold windowDecode
          obtain ⟨vals2, hvals2⟩ := Option.isSome_iff_exists.mp hdec2
          obtain ⟨k2, v2⟩ := e2
          simp only at hkey2 hvals2
          subst hkey2
          rw [convertToValues_img htz ht2OK hvals2]
          simp only
          have hkord := hhd _ h2
          have ht12 : t < t2 := (goFormat_lt_iff htz htOK ht2OK).mp hkord
          rw [if_neg (by simp; omega)]
      rw [List.filterMap_eq_nil_iff.mpr hnone]
      unfold scanLoop
      rw [hparse]
      simp only
      rw [if_pos hend]
    · unfold scanLoop
      rw [hparse]
      simp only
      rw [if_neg hend]
      rw [hconv]
      have hgerest : ∀ e2 ∈ rest, lexLt e2.1.data (goFormat tz startT).data = false :=
        fun e2 he2 => hge e2 (by simp [he2])
      have himgrest : ∀ e2 ∈ rest, ∃ t2, TimeOK tz t2 ∧
          e2.1 = goFormat tz t2 ∧ (unmarshal e2.2).isSome :=
        fun e2 he2 => himg e2 (by simp [he2])
      rw [ih hrest himgrest hgerest]
      simp only [List.filterMap_cons]
      unfold windowDecode
      rw [hconv]
      simp only
      rw [if_pos (by constructor <;> omega)]

theorem dropWhile_all_false {α : Type} (p : α → Bool) (R : α → α → Prop)
    (hdc : ∀ a b, R a b → p b = true → p a = true) :
    ∀ (l : List α), l.Pairwise R → ∀ e ∈ l.dropWhile p, p e = false := by
  intro l
  induction l with
  | nil => intro _ e he; simp at he
  | cons a rest ih =>
    intro hsorted e he
    rw [List.pairwise_cons] at hsorted
    obtain ⟨hhd, hrest⟩ := hsorted
    by_cases hp : p a = true
    · rw [List.dropWhile_cons, if_pos hp] at he
      exact ih hrest e he
    · rw [List.dropWhile_cons, if_neg hp] at he
      rcases List.mem_cons.mp he with h1 | h1
      · subst h1
        exact Bool.eq_false_iff.mpr hp
      · by_contra hpe
        exact hp (hdc a e (hhd e h1) (Bool.not_eq_false _ |>.mp hpe))

theorem mem_takeWhile_p {α : Type} (p : α → Bool) :
    ∀ (l : List α), ∀ e ∈ l.takeWhile p, p e = true := by
  intro l
  induction l with
  | nil => intro e he; simp at he
  | cons a rest ih =>
    intro e he
    by_cases hp : p a = true
    · rw [List.takeWhile_cons, if_pos hp] at he
      rcases List.mem_cons.mp he with h1 | h1
      · subst h1; exact hp
      · exact ih e h1
    · rw [List.takeWhile_cons, if_neg hp] at he
      simp at he

/-- Full characterisation of `ReadValues` on a well-formed namespace: it
returns exactly the decoded entries whose timestamp lies in the closed
window between the truncated start and `now` truncated. -/
theorem readValues_spec {F : Type} (unmarshal : String → Option (SensorValues F))
    (tz res : Int) (htz : tz.natAbs < 1440) (db : DBm) (sid : String)
    {b : Bucket} (hfind : findB db sid = some b) (hsorted : BSorted b)
    (himg : ∀ e ∈ b, ∃ t, TimeOK tz t ∧ e.1 = goFormat tz t ∧ (unmarshal e.2).isSome)
    (d now : Int)
    (hstartOK : TimeOK tz (goTruncate (if 0 < d then now - d else now + d) res)) :
    readValues unmarshal tz res db sid d now =
      .ok (b.filterMap (windowDecode unmarshal
        (goTruncate (if 0 < d then now - d else now + d) res) (goTruncate now res))) := by
  have hstart : (if 0 < d then goFormat tz (goTruncate (now - d) res)
      else goFormat tz (goTruncate (now + d) res))
      = goFormat tz (goTruncate (if 0 < d then now - d else now + d) res) := by
    by_cases hd : 0 < d <;> simp [hd]
  unfold readValues
  rw [hfind]
  simp only [hstart]
  set startT := goTruncate (if 0 < d then now - d else now + d) res with hstartT
  set endT := goTruncate now res with hendT
  set p : String × String → Bool := fun e => lexLt e.1.data (goFormat tz startT).data
    with hp
  have hsplit : b.takeWhile p ++ b.dropWhile p = b :=
    List.takeWhile_append_dropWhile p b
  have hmemtake : ∀ e ∈ b.takeWhile p, e ∈ b := by
    intro e he
    rw [← hsplit]
    exact List.mem_append.mpr (Or.inl he)
  have hmemdrop : ∀ e ∈ b.dropWhile p, e ∈ b := by
    intro e he
    rw [← hsplit]
    exact List.mem_append.mpr (Or.inr he)
  have hscan := scanLoop_spec unmarshal tz htz startT endT hstartOK (b.dropWhile p)
    (hsorted.sublist (List.dropWhile_sublist p))
    (fun e he => himg e (hmemdrop e he))
    (dropWhile_all_false p _ (fun a c hR hpc => lexLt_trans hR hpc) b hsorted)
  rw [hscan]
  congr 1
  have htakenone : ∀ e ∈ b.takeWhile p, windowDecode unmarshal startT endT e = none := by
    intro e he
    have hpe := mem_takeWhile_p p b e he
    obtain ⟨t, htOK, hkey, hdec⟩ := himg e (hmemtake e he)
    obtain ⟨vals, hvals⟩ := Option.isSome_iff_exists.mp hdec
    obtain ⟨k, v⟩ := e
    simp only at hkey hvals
    subst hkey
    have htlt : t < startT := by
      apply (goFormat_lt_iff htz htOK hstartOK).mp
      simpa [hp] using hpe
    unfold windowDecode
    rw [convertToValues_img htz htOK hvals]
    simp only
    rw [if_neg (by simp; omega)]
  conv_rhs => rw [← hsplit]
  rw [List.filterMap_append, List.filterMap_eq_nil_iff.mpr htakenone,
    List.nil_append]

theorem runWrites_sorted {F : Type} (marshal : SensorValues F → Option String)
    (tz res : Int) :
    ∀ (writes : List (Int × SensorValues F)) (b : Bucket), BSorted b →
    BSorted (runWrites marshal tz res writes b) := by
  intro writes
  induction writes with
  | nil => intro b hb; exact hb
  | cons p rest ih =>
    intro b hb
    obtain ⟨t, v⟩ := p
    show BSorted (runWrites marshal tz res rest (writeB marshal tz res b t v))
    apply ih
    unfold writeB
    cases marshal v with
    | none => exact hb
    | some s => exact bput_sorted hb _ _

theorem runWrites_mem {F : Type} (marshal : SensorValues F → Option String)
    (tz res : Int) :
    ∀ (writes : List (Int × SensorValues F)) (b : Bucket) (e : String × String),
    e ∈ runWrites marshal tz res writes b →
    e ∈ b ∨ ∃ p ∈ writes, e.1 = goFormat tz (goTruncate p.1 res)
      ∧ marshal p.2 = some e.2 := by
  intro writes
  induction writes with
  | nil => intro b e he; exact Or.inl he
  | cons p rest ih =>
    intro b e he
    obtain ⟨t, v⟩ := p
    have he' : e ∈ runWrites marshal tz res rest (writeB marshal tz res b t v) := he
    rcases ih _ e he' with h1 | ⟨q, hq, hkey, hm⟩
    · unfold writeB at h1
      rcases hms : marshal v with _ | s
      · rw [hms] at h1
        exact Or.inl h1
      · rw [hms] at h1
        rcases bput_mem h1 with h2 | h2
        · refine Or.inr ⟨(t, v), by simp, ?_, ?_⟩
          · rw [h2]
          · rw [h2, hms]
        · exact Or.inl h2
    · exact Or.inr ⟨q, by simp [hq], hkey, hm⟩

theorem storeValues_bucket {F : Type} {marshal : SensorValues F → Option String}
    {tz res : Int} {db : DBm} {sid : String} {v : SensorValues F} {now : Int}
    {b : Bucket} {s : String} (hfind : findB db sid = some b)
    (hm : marshal v = some s) :
    storeValues marshal tz res db sid v now =
      .ok (updB db sid (bput b (goFormat tz (goTruncate now res)) s)) := by
  unfold storeValues
  rw [hm, hfind]

/-- Output order of the window decode of a sorted, image-keyed bucket:
timestamps are non-decreasing. -/
theorem filterMap_windowDecode_sorted {F : Type}
    (unmarshal : String → Option (SensorValues F)) (tz : Int)
    (htz : tz.natAbs < 1440) (startT endT : Int) (l : List (String × String))
    (hsorted : l.Pairwise (fun e1 e2 => lexLt e1.1.data e2.1.data = true))
    (himg : ∀ e ∈ l, ∃ t, TimeOK tz t ∧ e.1 = goFormat tz t) :
    (l.filterMap (windowDecode unmarshal startT endT)).Pairwise
      (fun tv1 tv2 => tv1.Timestamp ≤ tv2.Timestamp) := by
  rw [List.pairwise_filterMap]
  apply List.Pairwise.imp_of_mem ?_ hsorted
  intro e1 e2 he1 he2 hlt tv1 htv1 tv2 htv2
  obtain ⟨t1, ht1OK, hkey1⟩ := himg e1 he1
  obtain ⟨t2, ht2OK, hkey2⟩ := himg e2 he2
  have ht12 : t1 < t2 := by
    apply (goFormat_lt_iff htz ht1OK ht2OK).mp
    rw [← hkey1, ← hkey2]
    exact hlt
  have hts1 : tv1.Timestamp = t1 := by
    unfold windowDecode at htv1
    rcases hc : convertToValues unmarshal e1.1 e1.2 with tv | ge | _
    · rw [hc] at htv1
      simp only at htv1
      split at htv1
      · unfold convertToValues at hc
        rw [hkey1, parseRFC3339_goFormat htz ht1OK] at hc
        rcases hu : unmarshal e1.2 with _ | vals
        · rw [hu] at hc; simp at hc
        · rw [hu] at hc
          simp only at hc
          have := Option.some_injective _ htv1
          rw [← this]
          have : tv = ⟨t1, vals⟩ := by
            cases hc
            rfl
          rw [this]
      · simp at htv1
    · rw [hc] at htv1; simp at htv1
    · rw [hc] at htv1; simp at htv1
  have hts2 : tv2.Timestamp = t2 := by
    unfold windowDecode at htv2
    rcases hc : convertToValues unmarshal e2.1 e2.2 with tv | ge | _
    · rw [hc] at htv2
      simp only at htv2
      split at htv2
      · unfold convertToValues at hc
        rw [hkey2, parseRFC3339_goFormat htz ht2OK] at hc
        rcases hu : unmarshal e2.2 with _ | vals
        · rw [hu] at hc; simp at hc
        · rw [hu] at hc
          simp only at hc
          have := Option.some_injective _ htv2
          rw [← this]
          have : tv = ⟨t2, vals⟩ := by
            cases hc
            rfl
          rw [this]
      · simp at htv2
    · rw [hc] at htv2; simp at htv2
    · rw [hc] at htv2; simp at htv2
  rw [hts1, hts2]
  omega

theorem bput_nil (k v : String) : bput [] k v = [(k, v)] := rfl

theorem bput_cons (e : String × String) (rest : Bucket) (k v : String) :
    bput (e :: rest) k v
      = if lexLt k.data e.1.data = true then (k, v) :: e :: rest
        else if k = e.1 then (k, v) :: rest else e :: bput rest k v := rfl

theorem bput_bput_same (b : Bucket) (k s1 s2 : String) :
    bput (bput b k s1) k s2 = bput b k s2 := by
  have hself : lexLt k.data k.data = false := lexLt_irrefl k.data
  induction b with
  | nil =>
    conv_lhs => rw [bput_nil, bput_cons]
    conv_rhs => rw [bput_nil]
    simp [hself]
  | cons e rest ih =>
    by_cases h1 : lexLt k.data e.1.data = true
    · conv_lhs => rw [bput_cons, if_pos h1, bput_cons]
      conv_rhs => rw [bput_cons, if_pos h1]
      simp [hself]
    · by_cases h2 : k = e.1
      · conv_lhs => rw [bput_cons, if_neg h1, if_pos h2, bput_cons]
        conv_rhs => rw [bput_cons, if_neg h1, if_pos h2]
        simp [hself]
      · conv_lhs => rw [bput_cons, if_neg h1, if_neg h2, bput_cons]
        conv_rhs => rw [bput_cons, if_neg h1, if_neg h2]
        rw [if_neg h1, if_neg h2, ih]

theorem csum_ge_first (size : Nat → Nat) (i n : Nat) (h : 1 ≤ n) :
    size i ≤ csum size i n := by
  cases n with
  | zero => omega
  | succ m =>
    have hstep : csum size i (m + 1) = size i + csum size (i + 1) m := rfl
    omega

theorem maxDays_ge : 365 ≤ maxDays := by
  have h := csum_ge_first yearSize 0 9999 (by omega)
  have h2 : yearSize 0 = 365 := by decide
  unfold maxDays
  omega

/-- Range guard discharge for small concrete times, avoiding any
computation of the 9999-year day total. -/
theorem timeOK_small {tz t : Int} (h0 : 0 ≤ t + tz * 60)
    (h1 : t + tz * 60 < 365 * 86400) : TimeOK tz t := by
  refine ⟨h0, ?_⟩
  have hm := maxDays_ge
  omega

/-- Key demanded by the spec's own words for a stored entry: the RFC 3339,
UTC ("Z"), second-precision encoding of the bucket start.  Kept separate
from `goFormat` so the stored key can be compared against it. -/
def specUTCKey (t : Int) : String := goFormat 0 t

/-- Concrete stand-in for `json.Marshal` over `SensorValues` used by the
witnesses: total on three of the four `Bool`-valued structs and failing
on the fourth, as `json.Marshal` fails on non-finite floats. -/
def marshalW : SensorValues Bool → Option String := fun v =>
  match v.Temperature, v.Humidity with
  | false, false => some "a"
  | false, true => some "b"
  | true, false => some "c"
  | true, true => none

/-- Concrete stand-in for `json.Unmarshal`, inverse of `marshalW` on its
range. -/
def unmarshalW : String → Option (SensorValues Bool) := fun s =>
  if s = "a" then some ⟨false, false⟩
  else if s = "b" then some ⟨false, true⟩
  else if s = "c" then some ⟨true, false⟩
  else none

theorem marshalW_rt : ∀ (v : SensorValues Bool) (s : String),
    marshalW v = some s → unmarshalW s = some v := by
  intro v s h
  obtain ⟨tp, hm⟩ := v
  cases tp <;> cases hm <;> simp [marshalW] at h <;> simp [unmarshalW, ← h]

/-- C10: `ReadLastValue` and `ReadValues` presuppose a provisioned sensor
namespace; for a sensorID whose namespace was never created, both look up
a nil bucket and dereference it through `Cursor()`, crashing (a runtime
panic) instead of returning a typed error or an empty result. -/
theorem c10_query_panics_on_missing_namespace {F : Type}
    (unmarshal : String → Option (SensorValues F)) (tz res : Int) (db : DBm)
    (sid : String) (d now : Int) (hmiss : findB db sid = none) :
    readLastValue unmarshal db sid = .panicked ∧
    readValues unmarshal tz res db sid d now = .panicked := by
  constructor
  · unfold readLastValue
    rw [hmiss]
  · unfold readValues
    rw [hmiss]

theorem c10_query_panics_on_missing_namespace_witness :
    readLastValue unmarshalW [] "test" = .panicked ∧
    readValues unmarshalW 0 600 [] "test" 600 700 = .panicked :=
  c10_query_panics_on_missing_namespace unmarshalW 0 600 [] "test" 600 700 rfl

/-- C1 (counterexample): on a provisioned but empty namespace,
`ReadLastValue` does not return a nil result with no error — it returns a
decoding error, because `Cursor.Last` yields a nil key that
`convertToValues` still tries to parse. -/
theorem c1_counterexample :
    readLastValue unmarshalW [("test", ([] : Bucket))] "test" = .err .decoding ∧
    readLastValue unmarshalW [("test", ([] : Bucket))] "test"
      ≠ .ok (none : Option (TimedSensorValues Bool)) := by
  constructor
  · rfl
  · decide

/-- C1 (amended): for every sensor whose namespace exists but contains no
entries, `ReadLastValue` returns a nil result together with a
`DecodingError` (the `time.Parse` failure on the empty key), not a nil
result with no error. -/
theorem c1_empty_namespace_decoding_error {F : Type}
    (unmarshal : String → Option (SensorValues F)) (db : DBm) (sid : String)
    (hempty : findB db sid = some []) :
    readLastValue unmarshal db sid = .err .decoding := by
  unfold readLastValue
  rw [hempty]
  rfl

theorem c1_empty_namespace_decoding_error_witness :
    readLastValue unmarshalW [("s", ([] : Bucket))] "s" = .err .decoding :=
  c1_empty_namespace_decoding_error unmarshalW [("s", [])] "s" rfl

/-- C4 (counterexample): a `StoreValues` call for a sensor whose namespace
is missing does not return a `StorageWriteError` — with serialization
succeeding, `b.Put` dereferences the nil bucket and the call crashes. -/
theorem c4_counterexample :
    storeValues marshalW 0 600 [] "test" ⟨false, false⟩ 36180 = .panicked ∧
    ∀ ge : GoError,
      storeValues marshalW 0 600 [] "test" ⟨false, false⟩ 36180 ≠ .err ge := by
  constructor
  · rfl
  · intro ge
    cases ge <;> decide

/-- C4 (amended): `StoreValues` returns an `EncodingError` exactly when
serialization fails (checked before the bucket is touched); with
serialization succeeding, a missing namespace causes a nil-dereference
panic — not a returned `StorageWriteError` — and an existing namespace
receives the put. -/
theorem c4_storeValues_error_taxonomy {F : Type}
    (marshal : SensorValues F → Option String) (tz res : Int) (db : DBm)
    (sid : String) (v : SensorValues F) (now : Int) :
    (storeValues marshal tz res db sid v now = .err .encoding ↔ marshal v = none) ∧
    (storeValues marshal tz res db sid v now = .panicked ↔
      ((marshal v).isSome ∧ findB db sid = none)) ∧
    (∀ s, marshal v = some s → ∀ b, findB db sid = some b →
      storeValues marshal tz res db sid v now =
        .ok (updB db sid (bput b (goFormat tz (goTruncate now res)) s))) := by
  unfold storeValues
  rcases hm : marshal v with _ | s <;> rcases hf : findB db sid with _ | b <;>
    simp [hm, hf]

theorem c4_storeValues_error_taxonomy_witness :
    storeValues marshalW 0 600 [("test", ([] : Bucket))] "test"
        ⟨false, false⟩ 36180
      = .ok (updB [("test", [])] "test"
          (bput [] (goFormat 0 (goTruncate 36180 600)) "a")) :=
  (c4_storeValues_error_taxonomy marshalW 0 600 [("test", [])] "test"
    ⟨false, false⟩ 36180).2.2 "a" rfl [] rfl

/-- C2 (counterexample): the stored key is rendered in the zone of
`time.Now()`, not in UTC; in a process whose local zone has offset +01:00
the key of a write at 10:03 local standard seconds carries the `+01:00`
suffix and differs from the UTC encoding of the bucket start that the
spec prescribes. -/
theorem c2_counterexample :
    storeValues marshalW 60 600 [("test", ([] : Bucket))] "test"
        ⟨false, false⟩ 36180
      = .ok [("test", [("0001-01-01T11:00:00+01:00", "a")])] ∧
    ("0001-01-01T11:00:00+01:00" : String) ≠ specUTCKey (goTruncate 36180 600) := by
  constructor
  · rfl
  · decide

/-- C2 (amended): every `StoreValues` call stores under the RFC 3339,
second-precision rendering — in the process's local zone — of the current
wall-clock time truncated down to the nearest multiple of the resolution
(the greatest multiple not exceeding now); only when the local zone is
UTC does the key equal the spec's UTC encoding. -/
theorem c2_key_is_truncated_rfc3339 {F : Type}
    (marshal : SensorValues F → Option String) (tz res : Int) (db : DBm)
    (sid : String) (v : SensorValues F) (now : Int) {b : Bucket} {s : String}
    (hfind : findB db sid = some b) (hm : marshal v = some s) (hres : 0 < res) :
    storeValues marshal tz res db sid v now =
      .ok (updB db sid (bput b (goFormat tz (goTruncate now res)) s)) ∧
    goTruncate now res % res = 0 ∧ goTruncate now res ≤ now ∧
    now < goTruncate now res + res ∧
    (tz = 0 → goFormat tz (goTruncate now res) = specUTCKey (goTruncate now res)) := by
  obtain ⟨ht1, ht2, ht3⟩ := goTruncate_spec now res hres
  refine ⟨storeValues_bucket hfind hm, ht1, ht2, ht3, ?_⟩
  intro htz
  rw [htz]
  rfl

theorem c2_key_is_truncated_rfc3339_witness :
    storeValues marshalW 0 600 [("test", ([] : Bucket))] "test"
        ⟨false, false⟩ 36180
      = .ok (updB [("test", [])] "test"
          (bput [] (goFormat 0 (goTruncate 36180 600)) "a")) ∧
    goFormat 0 (goTruncate 36180 600) = specUTCKey (goTruncate 36180 600) := by
  have h := c2_key_is_truncated_rfc3339 marshalW 0 600 [("test", [])] "test"
    ⟨false, false⟩ 36180 rfl rfl (by omega)
  exact ⟨h.1, h.2.2.2.2 rfl⟩

/-- C6: round trip — writing serializable values for a provisioned sensor
(at a time not before any stored entry, as wall clocks advance) and then
reading the last value yields a `TimedSensorValues` carrying exactly the
written values, stamped with the bucket start. -/
theorem c6_roundtrip {F : Type} (marshal : SensorValues F → Option String)
    (unmarshal : String → Option (SensorValues F))
    (hrt : ∀ v s, marshal v = some s → unmarshal s = some v)
    (tz res : Int) (htz : tz.natAbs < 1440) (db : DBm) (sid : String)
    {b : Bucket} (hfind : findB db sid = some b) (hsorted : BSorted b)
    (v : SensorValues F) {s : String} (hm : marshal v = some s) (now : Int)
    (ht : TimeOK tz (goTruncate now res))
    (hlast : ∀ e ∈ b, lexLt (goFormat tz (goTruncate now res)).data e.1.data = false) :
    ∃ db2, storeValues marshal tz res db sid v now = .ok db2 ∧
      readLastValue unmarshal db2 sid = .ok (some ⟨goTruncate now res, v⟩) := by
  refine ⟨updB db sid (bput b (goFormat tz (goTruncate now res)) s),
    storeValues_bucket hfind hm, ?_⟩
  have hfind2 := findB_updB hfind (bput b (goFormat tz (goTruncate now res)) s)
  unfold readLastValue
  simp only [hfind2, bput_getLast hsorted hlast, Option.getD_some]
  rw [convertToValues_img htz ht (hrt v s hm)]

theorem c6_roundtrip_witness :
    ∃ db2, storeValues marshalW 0 600 [("test", [(goFormat 0 0, "a")])] "test"
        ⟨false, true⟩ 36180 = .ok db2 ∧
      readLastValue unmarshalW db2 "test"
        = .ok (some ⟨goTruncate 36180 600, ⟨false, true⟩⟩) := by
  apply c6_roundtrip marshalW unmarshalW marshalW_rt 0 600 (by decide)
    [("test", [(goFormat 0 0, "a")])] "test" rfl
    (by unfold BSorted; exact List.pairwise_singleton _ _)
    ⟨false, true⟩ rfl 36180
    (timeOK_small (by decide) (by decide))
  intro e he
  have : e = (goFormat 0 0, "a") := by simpa using he
  rw [this]
  decide

/-- C7: bucket uniqueness and last-write-wins — any write sequence from an
empty namespace leaves at most one entry per key (and keys determine the
truncated timestamp), and two consecutive `StoreValues` calls for the
same sensor in the same resolution window leave exactly one entry under
that bucket key, holding the second write's serialized value. -/
theorem c7_last_write_wins {F : Type} (marshal : SensorValues F → Option String)
    (tz res : Int) (db : DBm) (sid : String) {b : Bucket}
    (hfind : findB db sid = some b) (hsorted : BSorted b)
    (v1 v2 : SensorValues F) {s1 s2 : String} (hm1 : marshal v1 = some s1)
    (hm2 : marshal v2 = some s2) (t1 t2 : Int)
    (hsame : goTruncate t1 res = goTruncate t2 res) :
    (∀ (writes : List (Int × SensorValues F)) (k : String),
      ((runWrites marshal tz res writes []).filter (fun e => e.1 == k)).length ≤ 1) ∧
    ∃ db1 db2,
      storeValues marshal tz res db sid v1 t1 = .ok db1 ∧
      storeValues marshal tz res db1 sid v2 t2 = .ok db2 ∧
      findB db2 sid = some (bput b (goFormat tz (goTruncate t2 res)) s2) ∧
      (bput b (goFormat tz (goTruncate t2 res)) s2).filter
          (fun e => e.1 == goFormat tz (goTruncate t2 res))
        = [(goFormat tz (goTruncate t2 res), s2)] := by
  constructor
  · intro writes k
    exact BSorted_filter_key_len
      (runWrites_sorted marshal tz res writes [] List.Pairwise.nil) k
  · set key := goFormat tz (goTruncate t2 res) with hkey
    have hkey1 : goFormat tz (goTruncate t1 res) = key := by rw [hkey, hsame]
    refine ⟨updB db sid (bput b key s1),
      updB (updB db sid (bput b key s1)) sid (bput b key s2), ?_, ?_, ?_, ?_⟩
    · rw [storeValues_bucket hfind hm1, hkey1]
    · have hfind1 := findB_updB hfind (bput b key s1)
      rw [storeValues_bucket hfind1 hm2, bput_bput_same]
    · have hfind1 := findB_updB hfind (bput b key s1)
      exact findB_updB hfind1 (bput b key s2)
    · exact bput_filter_key hsorted key s2

theorem c7_last_write_wins_witness :
    (∀ (writes : List (Int × SensorValues Bool)) (k : String),
      ((runWrites marshalW 0 600 writes []).filter (fun e => e.1 == k)).length ≤ 1) ∧
    ∃ db1 db2,
      storeValues marshalW 0 600 [("test", ([] : Bucket))] "test"
          ⟨false, false⟩ 36180 = .ok db1 ∧
      storeValues marshalW 0 600 db1 "test" ⟨false, true⟩ 36420 = .ok db2 ∧
      findB db2 "test" = some (bput [] (goFormat 0 (goTruncate 36420 600)) "b") ∧
      (bput ([] : Bucket) (goFormat 0 (goTruncate 36420 600)) "b").filter
          (fun e => e.1 == goFormat 0 (goTruncate 36420 600))
        = [(goFormat 0 (goTruncate 36420 600), "b")] :=
  c7_last_write_wins marshalW 0 600 [("test", [])] "test" rfl
    List.Pairwise.nil ⟨false, false⟩ ⟨false, true⟩ rfl rfl 36180 36420
    (by decide)

/-- C8: a `StoreValues` failure inside the writer routine does not stop
it — the failed message leaves the database untouched (its error is
discarded) and the routine consumes the remaining messages exactly as if
the failed one had not been sent. -/
theorem c8_failed_write_skipped {F : Type}
    (marshal : SensorValues F → Option String) (tz res : Int) (sid : String)
    (db : DBm) (bv : SensorValues F) (bt : Int) (hbad : marshal bv = none)
    (l1 l2 : List (Msg F)) :
    storeValuesRoutine marshal tz res sid db (l1 ++ Msg.val bt bv :: l2) =
      storeValuesRoutine marshal tz res sid db (l1 ++ l2) := by
  induction l1 generalizing db with
  | nil =>
    show storeValuesRoutine marshal tz res sid db (Msg.val bt bv :: l2)
      = storeValuesRoutine marshal tz res sid db l2
    have hsv : storeValues marshal tz res db sid bv bt = .err .encoding := by
      unfold storeValues
      rw [hbad]
    simp only [storeValuesRoutine, hsv]
  | cons m rest ih =>
    cases m with
    | closed => simp [storeValuesRoutine]
    | val t v =>
      simp only [List.cons_append, storeValuesRoutine]
      rcases hsv : storeValues marshal tz res db sid v t with db2 | ge | _
      · exact ih db2
      · exact ih db
      · rfl

theorem c8_failed_write_skipped_witness :
    storeValuesRoutine marshalW 0 600 "test" [("test", ([] : Bucket))]
        ([Msg.val 5 ⟨false, false⟩] ++ Msg.val 700 ⟨true, true⟩
          :: [Msg.val 1300 ⟨false, true⟩]) =
      storeValuesRoutine marshalW 0 600 "test" [("test", [])]
        ([Msg.val 5 ⟨false, false⟩] ++ [Msg.val 1300 ⟨false, true⟩]) :=
  c8_failed_write_skipped marshalW 0 600 "test" [("test", [])]
    ⟨true, true⟩ 700 rfl [Msg.val 5 ⟨false, false⟩] [Msg.val 1300 ⟨false, true⟩]

/-- C9: channel closure is the sole shutdown signal of the writer
routine — after consuming the values sent before closure (each persisted
through `StoreValues`, in order), the routine observes closure, stops,
and performs no further receive or write regardless of what would follow;
without a closure signal it keeps running after the same writes. -/
theorem c9_shutdown {F : Type} (marshal : SensorValues F → Option String)
    (tz res : Int) (sid : String) :
    ∀ (sends : List (Int × SensorValues F)) (db : DBm),
    (findB db sid).isSome = true →
    ∀ (junk : List (Msg F)),
    storeValuesRoutine marshal tz res sid db
        (sends.map (fun p => Msg.val p.1 p.2) ++ Msg.closed :: junk)
      = (sends.foldl (applySV marshal tz res sid) db, .stopped) ∧
    storeValuesRoutine marshal tz res sid db
        (sends.map (fun p => Msg.val p.1 p.2))
      = (sends.foldl (applySV marshal tz res sid) db, .running) := by
  intro sends
  induction sends with
  | nil => intro db hprov junk; exact ⟨rfl, rfl⟩
  | cons p rest ih =>
    intro db hprov junk
    obtain ⟨t, v⟩ := p
    rcases hsv : storeValues marshal tz res db sid v t with db2 | ge | _
    · have happ : applySV marshal tz res sid db (t, v) = db2 := by
        unfold applySV
        rw [hsv]
      have hprov2 : (findB db2 sid).isSome = true := by
        unfold storeValues at hsv
        rcases hm : marshal v with _ | s
        · rw [hm] at hsv
          simp at hsv
        · rw [hm] at hsv
          rcases hf : findB db sid with _ | b
          · rw [hf] at hsv
            simp at hsv
          · rw [hf] at hsv
            simp only [Res.ok.injEq] at hsv
            rw [← hsv, findB_updB hf]
            rfl
      constructor
      · simp only [List.map_cons, List.cons_append, storeValuesRoutine, hsv,
          List.foldl_cons, happ]
        exact (ih db2 hprov2 junk).1
      · simp only [List.map_cons, storeValuesRoutine, hsv, List.foldl_cons, happ]
        exact (ih db2 hprov2 junk).2
    · have happ : applySV marshal tz res sid db (t, v) = db := by
        unfold applySV
        rw [hsv]
      constructor
      · simp only [List.map_cons, List.cons_append, storeValuesRoutine, hsv,
          List.foldl_cons, happ]
        exact (ih db hprov junk).1
      · simp only [List.map_cons, storeValuesRoutine, hsv, List.foldl_cons, happ]
        exact (ih db hprov junk).2
    · exfalso
      unfold storeValues at hsv
      rcases hm : marshal v with _ | s
      · rw [hm] at hsv
        simp at hsv
      · rw [hm] at hsv
        rcases hf : findB db sid with _ | b
        · rw [hf] at hprov
          simp at hprov
        · rw [hf] at hsv
          simp at hsv

theorem c9_shutdown_witness :
    storeValuesRoutine marshalW 0 600 "test" [("test", ([] : Bucket))]
        (([(5, ⟨false, false⟩), (700, ⟨true, true⟩), (1300, ⟨false, true⟩)]
            : List (Int × SensorValues Bool)).map (fun p => Msg.val p.1 p.2)
          ++ Msg.closed :: [Msg.val 1900 ⟨true, false⟩])
      = (([(5, ⟨false, false⟩), (700, ⟨true, true⟩), (1300, ⟨false, true⟩)]
            : List (Int × SensorValues Bool)).foldl
          (applySV marshalW 0 600 "test") [("test", [])], .stopped) ∧
    storeValuesRoutine marshalW 0 600 "test" [("test", ([] : Bucket))]
        (([(5, ⟨false, false⟩), (700, ⟨true, true⟩), (1300, ⟨false, true⟩)]
            : List (Int × SensorValues Bool)).map (fun p => Msg.val p.1 p.2))
      = (([(5, ⟨false, false⟩), (700, ⟨true, true⟩), (1300, ⟨false, true⟩)]
            : List (Int × SensorValues Bool)).foldl
          (applySV marshalW 0 600 "test") [("test", [])], .running) :=
  c9_shutdown marshalW 0 600 "test"
    [(5, ⟨false, false⟩), (700, ⟨true, true⟩), (1300, ⟨false, true⟩)]
    [("test", [])] rfl [Msg.val 1900 ⟨true, false⟩]

/-- C3: on a well-formed namespace, `ReadValues(sensorID, d)` returns
exactly the decoded stored entries whose timestamp `t` satisfies
`start ≤ t ≤ end`, where `end` is `now` truncated to the resolution and
`start` is `now - d` truncated for `d > 0` and `now + d` truncated for
`d ≤ 0`; entries outside the window are never returned. -/
theorem c3_range_window {F : Type}
    (unmarshal : String → Option (SensorValues F)) (tz res : Int)
    (htz : tz.natAbs < 1440) (db : DBm) (sid : String) {b : Bucket}
    (hfind : findB db sid = some b) (hsorted : BSorted b)
    (himg : ∀ e ∈ b, ∃ t, TimeOK tz t ∧ e.1 = goFormat tz t ∧ (unmarshal e.2).isSome)
    (d now : Int)
    (hstartOK : TimeOK tz (goTruncate (if 0 < d then now - d else now + d) res)) :
    readValues unmarshal tz res db sid d now =
      .ok (b.filterMap (windowDecode unmarshal
        (goTruncate (if 0 < d then now - d else now + d) res)
        (goTruncate now res))) :=
  readValues_spec unmarshal tz res htz db sid hfind hsorted himg d now hstartOK

theorem c3_range_window_witness :
    readValues unmarshalW 0 600
        [("test", [(goFormat 0 0, "a"), (goFormat 0 600, "b"),
          (goFormat 0 1200, "c")])] "test" 600 1300
      = .ok ([(goFormat 0 0, "a"), (goFormat 0 600, "b"),
          (goFormat 0 1200, "c")].filterMap
          (windowDecode unmarshalW
            (goTruncate (if (0 : Int) < 600 then 1300 - 600 else 1300 + 600) 600)
            (goTruncate 1300 600))) := by
  apply c3_range_window unmarshalW 0 600 (by decide)
    [("test", [(goFormat 0 0, "a"), (goFormat 0 600, "b"), (goFormat 0 1200, "c")])]
    "test" rfl ?hs ?hi 600 1300 ?hst
  case hs =>
    refine List.Pairwise.cons ?_ (List.Pairwise.cons ?_ (List.pairwise_singleton _ _))
    · intro e he
      rcases (by simpa using he :
          e = (goFormat 0 600, "b") ∨ e = (goFormat 0 1200, "c")) with h | h <;>
        rw [h] <;> decide
    · intro e he
      rw [(by simpa using he : e = (goFormat 0 1200, "c"))]
      decide
  case hi =>
    intro e he
    rcases (by simpa using he : e = (goFormat 0 0, "a")
        ∨ e = (goFormat 0 600, "b") ∨ e = (goFormat 0 1200, "c")) with h | h | h
    · exact ⟨0, timeOK_small (by decide) (by decide), by rw [h], by rw [h]; decide⟩
    · exact ⟨600, timeOK_small (by decide) (by decide), by rw [h], by rw [h]; decide⟩
    · exact ⟨1200, timeOK_small (by decide) (by decide), by rw [h], by rw [h]; decide⟩
  case hst => exact timeOK_small (by decide) (by decide)

/-- C5: after any sequence of writes (spanning any number of resolution
windows), whatever sequence `ReadValues` returns is in non-decreasing
timestamp order. -/
theorem c5_ascending {F : Type} (marshal : SensorValues F → Option String)
    (unmarshal : String → Option (SensorValues F))
    (hrt : ∀ v s, marshal v = some s → (unmarshal s).isSome = true)
    (tz res : Int) (htz : tz.natAbs < 1440)
    (writes : List (Int × SensorValues F))
    (hw : ∀ p ∈ writes, TimeOK tz (goTruncate p.1 res))
    (db : DBm) (sid : String)
    (hfind : findB db sid = some (runWrites marshal tz res writes []))
    (d now : Int)
    (hstartOK : TimeOK tz (goTruncate (if 0 < d then now - d else now + d) res))
    (out : List (TimedSensorValues F))
    (hok : readValues unmarshal tz res db sid d now = .ok out) :
    out.Pairwise (fun tv1 tv2 => tv1.Timestamp ≤ tv2.Timestamp) := by
  set b := runWrites marshal tz res writes [] with hb
  have hsorted : BSorted b :=
    runWrites_sorted marshal tz res writes [] List.Pairwise.nil
  have himg2 : ∀ e ∈ b, ∃ t, TimeOK tz t ∧ e.1 = goFormat tz t := by
    intro e he
    rcases runWrites_mem marshal tz res writes [] e he with h | ⟨p, hp, hkey, hm⟩
    · simp at h
    · exact ⟨goTruncate p.1 res, hw p hp, hkey⟩
  have himg : ∀ e ∈ b, ∃ t, TimeOK tz t ∧ e.1 = goFormat tz t
      ∧ (unmarshal e.2).isSome := by
    intro e he
    rcases runWrites_mem marshal tz res writes [] e he with h | ⟨p, hp, hkey, hm⟩
    · simp at h
    · exact ⟨goTruncate p.1 res, hw p hp, hkey, hrt p.2 e.2 hm⟩
  have hspec := readValues_spec unmarshal tz res htz db sid hfind hsorted himg
    d now hstartOK
  rw [hspec] at hok
  simp only [Res.ok.injEq] at hok
  rw [← hok]
  exact filterMap_windowDecode_sorted unmarshal tz htz _ _ b hsorted himg2

theorem c5_ascending_witness :
    List.Pairwise (fun tv1 tv2 => tv1.Timestamp ≤ tv2.Timestamp)
      ([⟨600, ⟨false, true⟩⟩, ⟨1200, ⟨true, false⟩⟩]
        : List (TimedSensorValues Bool)) := by
  apply c5_ascending marshalW unmarshalW
    (fun v s h => by rw [marshalW_rt v s h]; rfl) 0 600 (by decide)
    [(0, ⟨false, false⟩), (700, ⟨false, true⟩), (1250, ⟨true, false⟩)]
    ?hw
    [("test", runWrites marshalW 0 600
      [(0, ⟨false, false⟩), (700, ⟨false, true⟩), (1250, ⟨true, false⟩)] [])]
    "test" rfl 600 1300 ?hst
  case hw =>
    intro p hp
    rcases (by simpa using hp : p = ((0 : Int), (⟨false, false⟩ : SensorValues Bool))
        ∨ p = (700, ⟨false, true⟩) ∨ p = (1250, ⟨true, false⟩)) with h | h | h <;>
      rw [h] <;> exact timeOK_small (by decide) (by decide)
  case hst => exact timeOK_small (by decide) (by decide)
  · rfl
